import Mathlib

/-!
Verification of the brutal Wordle scorer (src/main.rs) against its
natural-language specification.

Shallow embedding conventions:

* A `Word` (`struct Word([char; WORD_LENGTH])` in the source) is embedded as a
  `List Char`; the fixed length 5 becomes an explicit hypothesis
  `w.length = WORD_LENGTH` on theorems that need it.  Position access
  `word.0[i]` becomes `List.getD i '?'` (the default is irrelevant: every
  in-program access is in bounds), and in-place mutation becomes `List.set`.
* The f32 scores are embedded as exact rationals `ℚ`.  The claims under
  verification are about the structure of the arithmetic (which sums are
  formed, when the sentinel is produced), not about IEEE rounding, so the
  exact field is the faithful value-level reading.
* The depth-indexed scratch buffers (`constraint_buffers`, `word_buffers`,
  both of length `GUESS_LIMIT`, sliced by one on every recursive call) carry
  no values into a call: each level is cleared before use.  Their only
  semantic content is the recursion bound, which is embedded as the `fuel`
  argument of `get_score_aux` (the length of the buffer slice still
  available); the slice-exhausted case, dead code in the source for the same
  reason the fuel never runs out, returns the sentinel.
-/

def WORD_LENGTH : Nat := 5

def GUESS_LIMIT : Nat := 6

/-- Constraint enum from the source: Green (present, correct place),
Yellow (present, wrong place), Gray (not present). -/
inductive Constraint where
  | green (c : Char) (i : Nat)
  | yellow (c : Char) (i : Nat)
  | gray (c : Char)
deriving DecidableEq, Repr

/-- First pass of `get_constraints`: for each position `i` (in order), if the
answer copy and guess copy agree there, emit `Green` and blank both copies at
`i`.  Returns the emitted constraints and the two updated copies. -/
def greenAux : List Nat → List Char → List Char → List Constraint × List Char × List Char
  | [], aC, gC => ([], aC, gC)
  | i :: is, aC, gC =>
    if aC.getD i '?' = gC.getD i '?' then
      let r := greenAux is (aC.set i '_') (gC.set i '_')
      (Constraint.green (gC.getD i '?') i :: r.1, r.2)
    else
      greenAux is aC gC

/-- Blank the first occurrence of `c` in the list (in the source:
`position` + assignment of `'_'`). -/
def blankFirst (c : Char) : List Char → List Char
  | [] => []
  | d :: ds => if d = c then '_' :: ds else d :: blankFirst c ds

/-- Second pass of `get_constraints`: for each still-unconsumed guess position
`i` (char `≠ '_'`), if the answer copy still contains that char anywhere,
emit `Yellow`, blank that first occurrence in the answer copy, and blank the
guess position. -/
def yellowAux : List Nat → List Char → List Char → List Constraint × List Char × List Char
  | [], aC, gC => ([], aC, gC)
  | i :: is, aC, gC =>
    if gC.getD i '?' ≠ '_' ∧ gC.getD i '?' ∈ aC then
      let r := yellowAux is (blankFirst (gC.getD i '?') aC) (gC.set i '_')
      (Constraint.yellow (gC.getD i '?') i :: r.1, r.2)
    else
      yellowAux is aC gC

/-- Third pass of `get_constraints`: for each remaining unconsumed guess char,
push a `Gray` unless the buffer already contains that exact `Gray`. -/
def grayAux (buf : List Constraint) : List Char → List Constraint
  | [] => buf
  | c :: cs =>
    if c ≠ '_' ∧ Constraint.gray c ∉ buf then
      grayAux (buf ++ [Constraint.gray c]) cs
    else
      grayAux buf cs

/-- `get_constraints` from the source: greens, then yellows, then deduplicated
grays, working on mutable copies of both words. -/
def get_constraints (answer guess : List Char) : List Constraint :=
  let g := greenAux (List.range WORD_LENGTH) answer guess
  let y := yellowAux (List.range WORD_LENGTH) g.2.1 g.2.2
  grayAux (g.1 ++ y.1) y.2.2

/-- `passes_constraint` from the source, evaluated against the current working
copy of the word. -/
def passes_constraint (word : List Char) : Constraint → Bool
  | Constraint.green c i => word.getD i '?' = c
  | Constraint.yellow c i => c ∈ word ∧ word.getD i '?' ≠ c
  | Constraint.gray c => c ∉ word

/-- The consumption step performed by `passes_constraints` after a constraint
passes: a matched Green blanks its position, a matched Yellow blanks the first
remaining occurrence of its char, Gray consumes nothing. -/
def consumeConstraint (word : List Char) : Constraint → List Char
  | Constraint.green _ i => word.set i '_'
  | Constraint.yellow c _ => blankFirst c word
  | Constraint.gray _ => word

/-- `passes_constraints` from the source: check the constraints in order
against a working copy, consuming matched characters, short-circuiting at the
first failure. -/
def passes_constraints (word : List Char) : List Constraint → Bool
  | [] => true
  | c :: cs =>
    if passes_constraint word c then passes_constraints (consumeConstraint word c) cs
    else false

/-- Blank the first occurrence of `c`, or `none` when there is none: this is
the partial operation the source performs with
`iter_mut().find(|d| *d == c).unwrap()` inside `passes_constraints`. -/
def blankFirstOpt (c : Char) : List Char → Option (List Char)
  | [] => none
  | d :: ds =>
    if d = c then some ('_' :: ds)
    else (blankFirstOpt c ds).map (fun t => d :: t)

/-- Consumption step with the `unwrap` in the source made explicit: `none` models a
panic of the Yellow-case `unwrap`. -/
def consumeChecked (word : List Char) : Constraint → Option (List Char)
  | Constraint.green _ i => some (word.set i '_')
  | Constraint.yellow c _ => blankFirstOpt c word
  | Constraint.gray _ => some word

/-- `passes_constraints` with the Yellow-case `unwrap` made explicit: `none`
models a panic. -/
def passesConstraintsChecked (word : List Char) : List Constraint → Option Bool
  | [] => some true
  | c :: cs =>
    if passes_constraint word c then
      match consumeChecked word c with
      | some w => passesConstraintsChecked w cs
      | none => none
    else
      some false

/-- `filter_word_list` from the source: keep, in order, the words that pass
all constraints. -/
def filter_word_list (words : List (List Char)) (constraints : List Constraint) :
    List (List Char) :=
  words.filter (fun w => passes_constraints w constraints)

/-- `get_score` from the source, with the remaining length of the depth-indexed
buffer slice made explicit as `fuel` (see header).  The two base cases are
checked before any buffer is touched, exactly as in the source; the recursive
case derives the constraints, filters the pool, and folds the recursive scores
in pool order, accumulating `guesses_sum` and `success_sum` exactly as the
loop in the source does.  The recursive arm of the `fuel = 0` case is the
(unreachable) exhausted-slice panic, modelled as the sentinel; the two base
cases run before any buffer is touched there too. -/
def get_score_aux (answer : List Char) : Nat → List Char → List (List Char) → Nat → ℚ × ℚ
  | 0, guess, _, starting_guess =>
    if answer = guess then ((starting_guess : ℚ), 1)
    else if GUESS_LIMIT ≤ starting_guess then (0, 0)
    else (0, 0)
  | fuel + 1, guess, words, starting_guess =>
    if answer = guess then ((starting_guess : ℚ), 1)
    else if GUESS_LIMIT ≤ starting_guess then (0, 0)
    else
      let next := filter_word_list words (get_constraints answer guess)
      let s :=
        next.foldl
          (fun acc w =>
            let r := get_score_aux answer fuel w next (starting_guess + 1)
            (acc.1 + r.1 * r.2, acc.2 + r.2))
          (0, 0)
      if 0 < s.2 then (s.1 / s.2, s.2 / (next.length : ℚ)) else (0, 0)

/-- `get_score`: the full buffer array has `GUESS_LIMIT` levels. -/
def get_score (answer guess : List Char) (words : List (List Char))
    (starting_guess : Nat) : ℚ × ℚ :=
  get_score_aux answer GUESS_LIMIT guess words starting_guess

/-- Per-search-word aggregation performed by each worker thread: fold
`get_score` over the answer pool (attempt number 1, guess pool as candidate
pool), then combine the sums the same way the recursive case does, except that
the success rate divides by the answer-pool size unconditionally. -/
def score_word (answer_words guess_words : List (List Char)) (guess : List Char) : ℚ × ℚ :=
  let s :=
    answer_words.foldl
      (fun acc answer =>
        let r := get_score answer guess guess_words 1
        (acc.1 + r.1 * r.2, acc.2 + r.2))
      (0, 0)
  ((if 0 < s.2 then s.1 / s.2 else 0), s.2 / (answer_words.length : ℚ))

/-- UTF-8 byte length of a character sequence: this is what `value.len()`
measures on a Rust `&str`. -/
def utf8Length (s : List Char) : Nat :=
  (s.map Char.utf8Size).sum

/-- The `iter_mut().zip(value.chars())` copy in `Word::from_str`: overwrite the
placeholder slots positionally with the input characters, stopping at the
shorter of the two. -/
def fillWord : List Char → List Char → List Char
  | [], _ => []
  | ds, [] => ds
  | _ :: ds, c :: cs => c :: fillWord ds cs

/-- `Word::from_str` from the source: succeed iff the byte length of the input
(`value.len()`) is exactly `WORD_LENGTH`, and on success copy the
characters positionally over a `'_'`-filled word. -/
def wordFromStr (s : List Char) : Except String (List Char) :=
  if utf8Length s = WORD_LENGTH then
    Except.ok (fillWord (List.replicate WORD_LENGTH '_') s)
  else
    Except.error "word has incorrect length"

/-- One collector entry: a search word with its aggregate
(expected guesses, success rate) score. -/
def Entry : Type := List Char × ℚ × ℚ

instance : DecidableEq Entry := by
  unfold Entry
  infer_instance

/-- The comparison the collector sorts by: ascending expected guess count
(the first component of the score pair). -/
def reportLe (a b : Entry) : Bool :=
  a.2.1 ≤ b.2.1

/-- The collection thread, fully drained: push each arriving entry onto the
report and re-sort the whole report (stably, as the Rust `sort_by` is) after
every insertion. -/
def collect (arrivals : List Entry) : List Entry :=
  arrivals.foldl (fun acc r => (acc ++ [r]).mergeSort reportLe) []

lemma getD_set_self (l : List Char) {i : Nat} (x : Char) (h : i < l.length) :
    (l.set i x).getD i '?' = x := by
  rw [List.getD_eq_getElem?_getD, List.getElem?_set_eq_of_lt x h, Option.getD_some]

lemma getD_set_ne (l : List Char) {i j : Nat} (x : Char) (h : i ≠ j) :
    (l.set i x).getD j '?' = l.getD j '?' := by
  rw [List.getD_eq_getElem?_getD, List.getElem?_set_ne h, ← List.getD_eq_getElem?_getD]

lemma getD_set_cases (l : List Char) (i j : Nat) (x : Char) :
    (l.set i x).getD j '?' = l.getD j '?' ∨ (l.set i x).getD j '?' = x := by
  by_cases hij : i = j
  · subst hij
    by_cases h : i < l.length
    · right; exact getD_set_self l x h
    · left
      rw [List.getD_eq_getElem?_getD, List.getD_eq_getElem?_getD, List.getElem?_set_self']
      have hnone : l[i]? = none := List.getElem?_eq_none (Nat.le_of_not_lt h)
      rw [hnone]
      rfl
  · left; exact getD_set_ne l x hij

lemma blankFirst_length (c : Char) (l : List Char) : (blankFirst c l).length = l.length := by
  induction l with
  | nil => rfl
  | cons d ds ih =>
    by_cases h : d = c <;> simp [blankFirst, h, ih]

lemma blankFirst_getD (c : Char) (l : List Char) (j : Nat) :
    (blankFirst c l).getD j '?' = l.getD j '?' ∨ (blankFirst c l).getD j '?' = '_' := by
  induction l generalizing j with
  | nil => left; rfl
  | cons d ds ih =>
    by_cases h : d = c
    · simp only [blankFirst, if_pos h]
      cases j with
      | zero => right; rfl
      | succ j => left; rfl
    · simp only [blankFirst, if_neg h]
      cases j with
      | zero => left; rfl
      | succ j => simpa using ih j

lemma not_mem_blankFirst {x : Char} (hx : x ≠ '_') {l : List Char} (h : x ∉ l) (c : Char) :
    x ∉ blankFirst c l := by
  induction l with
  | nil => simp [blankFirst]
  | cons d ds ih =>
    simp only [List.mem_cons, not_or] at h
    by_cases hd : d = c
    · simp only [blankFirst, if_pos hd, List.mem_cons, not_or]
      exact ⟨hx, h.2⟩
    · simp only [blankFirst, if_neg hd, List.mem_cons, not_or]
      exact ⟨h.1, ih h.2⟩

lemma greenAux_go (is : List Nat) (aC gC : List Char) (rest : List Constraint) :
    passes_constraints aC ((greenAux is aC gC).1 ++ rest) =
      passes_constraints (greenAux is aC gC).2.1 rest := by
  induction is generalizing aC gC with
  | nil => simp [greenAux]
  | cons i is ih =>
    by_cases h : aC.getD i '?' = gC.getD i '?'
    · simp only [greenAux, if_pos h, List.cons_append]
      rw [passes_constraints]
      have hc : passes_constraint aC (Constraint.green (gC.getD i '?') i) = true := by
        simp only [passes_constraint, decide_eq_true_eq]
        exact h
      rw [if_pos hc]
      exact ih (aC.set i '_') (gC.set i '_')
    · simp only [greenAux, if_neg h]
      exact ih aC gC

lemma greenAux_untouched (is : List Nat) (aC gC : List Char) {j : Nat} (hj : j ∉ is) :
    (greenAux is aC gC).2.1.getD j '?' = aC.getD j '?' ∧
      (greenAux is aC gC).2.2.getD j '?' = gC.getD j '?' := by
  induction is generalizing aC gC with
  | nil => exact ⟨rfl, rfl⟩
  | cons i is ih =>
    simp only [List.mem_cons, not_or] at hj
    by_cases h : aC.getD i '?' = gC.getD i '?'
    · simp only [greenAux, if_pos h]
      have := ih (aC.set i '_') (gC.set i '_') hj.2
      rw [getD_set_ne aC '_' (fun he => hj.1 he.symm),
        getD_set_ne gC '_' (fun he => hj.1 he.symm)] at this
      exact this
    · simp only [greenAux, if_neg h]
      exact ih aC gC hj.2

lemma greenAux_length (is : List Nat) (aC gC : List Char) :
    (greenAux is aC gC).2.1.length = aC.length ∧
      (greenAux is aC gC).2.2.length = gC.length := by
  induction is generalizing aC gC with
  | nil => exact ⟨rfl, rfl⟩
  | cons i is ih =>
    by_cases h : aC.getD i '?' = gC.getD i '?'
    · simp only [greenAux, if_pos h]
      have := ih (aC.set i '_') (gC.set i '_')
      simpa [List.length_set] using this
    · simp only [greenAux, if_neg h]
      exact ih aC gC

lemma greenAux_mismatch (is : List Nat) (aC gC : List Char) (hnd : is.Nodup)
    (hlt : ∀ i ∈ is, i < gC.length) :
    ∀ i ∈ is, (greenAux is aC gC).2.2.getD i '?' ≠ '_' →
      (greenAux is aC gC).2.1.getD i '?' ≠ (greenAux is aC gC).2.2.getD i '?' := by
  induction is generalizing aC gC with
  | nil => intro i hi; exact absurd hi (List.not_mem_nil i)
  | cons i is ih =>
    rw [List.nodup_cons] at hnd
    intro k hk
    rw [List.mem_cons] at hk
    by_cases h : aC.getD i '?' = gC.getD i '?'
    · simp only [greenAux, if_pos h]
      rcases hk with rfl | hk
      · intro hne
        have hu := (greenAux_untouched is (aC.set k '_') (gC.set k '_') hnd.1).2
        rw [getD_set_self gC '_' (hlt k (List.mem_cons_self k is))] at hu
        exact absurd hu hne
      · exact ih (aC.set i '_') (gC.set i '_') hnd.2
          (fun j hj => List.length_set gC i '_' ▸ hlt j (List.mem_cons_of_mem i hj)) k hk
    · simp only [greenAux, if_neg h]
      rcases hk with rfl | hk
      · intro _
        have hu := greenAux_untouched is aC gC hnd.1
        rw [hu.1, hu.2]
        exact h
      · exact ih aC gC hnd.2 (fun j hj => hlt j (List.mem_cons_of_mem i hj)) k hk

lemma yellowAux_go (is : List Nat) (aC gC : List Char)
    (hP : ∀ i ∈ is, gC.getD i '?' ≠ '_' → aC.getD i '?' ≠ gC.getD i '?')
    (rest : List Constraint) :
    passes_constraints aC ((yellowAux is aC gC).1 ++ rest) =
      passes_constraints (yellowAux is aC gC).2.1 rest := by
  induction is generalizing aC gC with
  | nil => simp [yellowAux]
  | cons i is ih =>
    by_cases h : gC.getD i '?' ≠ '_' ∧ gC.getD i '?' ∈ aC
    · simp only [yellowAux, if_pos h, List.cons_append]
      rw [passes_constraints]
      have hc : passes_constraint aC (Constraint.yellow (gC.getD i '?') i) = true := by
        simp only [passes_constraint, decide_eq_true_eq]
        exact ⟨h.2, hP i (List.mem_cons_self i is) h.1⟩
      rw [if_pos hc]
      refine ih (blankFirst (gC.getD i '?') aC) (gC.set i '_') ?_
      intro j hj hne
      rcases getD_set_cases gC i j '_' with hcase | hcase
      · rw [hcase]
        rw [hcase] at hne
        rcases blankFirst_getD (gC.getD i '?') aC j with hb | hb
        · rw [hb]
          exact hP j (List.mem_cons_of_mem i hj) hne
        · rw [hb]
          exact fun he => hne he.symm
      · exact absurd hcase hne
    · simp only [yellowAux, if_neg h]
      exact ih aC gC (fun j hj => hP j (List.mem_cons_of_mem i hj))

lemma yellowAux_not_mem (is : List Nat) (aC gC : List Char) {x : Char} (hx : x ≠ '_')
    (h : x ∉ aC) : x ∉ (yellowAux is aC gC).2.1 := by
  induction is generalizing aC gC with
  | nil => exact h
  | cons i is ih =>
    by_cases hc : gC.getD i '?' ≠ '_' ∧ gC.getD i '?' ∈ aC
    · simp only [yellowAux, if_pos hc]
      exact ih (blankFirst (gC.getD i '?') aC) (gC.set i '_')
        (not_mem_blankFirst hx h (gC.getD i '?'))
    · simp only [yellowAux, if_neg hc]
      exact ih aC gC h

lemma yellowAux_untouched (is : List Nat) (aC gC : List Char) {j : Nat} (hj : j ∉ is) :
    (yellowAux is aC gC).2.2.getD j '?' = gC.getD j '?' := by
  induction is generalizing aC gC with
  | nil => rfl
  | cons i is ih =>
    simp only [List.mem_cons, not_or] at hj
    by_cases h : gC.getD i '?' ≠ '_' ∧ gC.getD i '?' ∈ aC
    · simp only [yellowAux, if_pos h]
      rw [ih (blankFirst (gC.getD i '?') aC) (gC.set i '_') hj.2,
        getD_set_ne gC '_' (fun he => hj.1 he.symm)]
    · simp only [yellowAux, if_neg h]
      exact ih aC gC hj.2

lemma yellowAux_length (is : List Nat) (aC gC : List Char) :
    (yellowAux is aC gC).2.1.length = aC.length ∧
      (yellowAux is aC gC).2.2.length = gC.length := by
  induction is generalizing aC gC with
  | nil => exact ⟨rfl, rfl⟩
  | cons i is ih =>
    by_cases h : gC.getD i '?' ≠ '_' ∧ gC.getD i '?' ∈ aC
    · simp only [yellowAux, if_pos h]
      have := ih (blankFirst (gC.getD i '?') aC) (gC.set i '_')
      simpa [List.length_set, blankFirst_length] using this
    · simp only [yellowAux, if_neg h]
      exact ih aC gC

lemma yellowAux_gray (is : List Nat) (aC gC : List Char) (hnd : is.Nodup)
    (hlt : ∀ i ∈ is, i < gC.length) :
    ∀ i ∈ is, (yellowAux is aC gC).2.2.getD i '?' ≠ '_' →
      (yellowAux is aC gC).2.2.getD i '?' ∉ (yellowAux is aC gC).2.1 := by
  induction is generalizing aC gC with
  | nil => intro i hi; exact absurd hi (List.not_mem_nil i)
  | cons i is ih =>
    rw [List.nodup_cons] at hnd
    intro k hk
    rw [List.mem_cons] at hk
    by_cases h : gC.getD i '?' ≠ '_' ∧ gC.getD i '?' ∈ aC
    · simp only [yellowAux, if_pos h]
      rcases hk with rfl | hk
      · intro hne
        have hu := yellowAux_untouched is (blankFirst (gC.getD k '?') aC) (gC.set k '_') hnd.1
        rw [getD_set_self gC '_' (hlt k (List.mem_cons_self k is))] at hu
        exact absurd hu hne
      · exact ih (blankFirst (gC.getD i '?') aC) (gC.set i '_') hnd.2
          (fun j hj => List.length_set gC i '_' ▸ hlt j (List.mem_cons_of_mem i hj)) k hk
    · simp only [yellowAux, if_neg h]
      rcases hk with rfl | hk
      · intro hne
        have hu := yellowAux_untouched is aC gC (j := k) hnd.1
        rw [hu]
        rw [hu] at hne
        have hnotmem : gC.getD k '?' ∉ aC := by
          intro hmem
          exact h ⟨hne, hmem⟩
        exact yellowAux_not_mem is aC gC hne hnotmem
      · exact ih aC gC hnd.2 (fun j hj => hlt j (List.mem_cons_of_mem i hj)) k hk

lemma grayAux_structure (l : List Char) (buf : List Constraint) :
    ∃ g, grayAux buf l = buf ++ g ∧
      ∀ k ∈ g, ∃ c, k = Constraint.gray c ∧ c ≠ '_' ∧ c ∈ l := by
  induction l generalizing buf with
  | nil => exact ⟨[], by simp [grayAux], by simp⟩
  | cons c cs ih =>
    by_cases h : c ≠ '_' ∧ Constraint.gray c ∉ buf
    · simp only [grayAux, if_pos h]
      obtain ⟨g, hg, hmem⟩ := ih (buf ++ [Constraint.gray c])
      refine ⟨Constraint.gray c :: g, by rw [hg]; simp, ?_⟩
      intro k hk
      rw [List.mem_cons] at hk
      rcases hk with rfl | hk
      · exact ⟨c, rfl, h.1, List.mem_cons_self c cs⟩
      · obtain ⟨d, hd, hdne, hdmem⟩ := hmem k hk
        exact ⟨d, hd, hdne, List.mem_cons_of_mem c hdmem⟩
    · simp only [grayAux, if_neg h]
      obtain ⟨g, hg, hmem⟩ := ih buf
      refine ⟨g, hg, ?_⟩
      intro k hk
      obtain ⟨d, hd, hdne, hdmem⟩ := hmem k hk
      exact ⟨d, hd, hdne, List.mem_cons_of_mem c hdmem⟩

lemma passes_grays (g : List Constraint) (w : List Char)
    (h : ∀ k ∈ g, ∃ c, k = Constraint.gray c ∧ c ∉ w) :
    passes_constraints w g = true := by
  induction g with
  | nil => rfl
  | cons k g ih =>
    obtain ⟨c, rfl, hc⟩ := h k (List.mem_cons_self k g)
    have hp : passes_constraint w (Constraint.gray c) = true := by
      simp only [passes_constraint, decide_eq_true_eq]
      exact hc
    rw [passes_constraints, if_pos hp]
    exact ih (fun k' hk' => h k' (List.mem_cons_of_mem _ hk'))

/-- Claim C1, derivation soundness: for every answer word and every guess word,
the answer itself satisfies the constraint sequence derived from comparing that
guess against it. -/
theorem c1_derivation_soundness (answer guess : List Char)
    (ha : answer.length = WORD_LENGTH) (hg : guess.length = WORD_LENGTH) :
    passes_constraints answer (get_constraints answer guess) = true := by
  have hbound : ∀ i ∈ List.range WORD_LENGTH, i < guess.length := by
    intro i hi
    rw [hg]
    exact List.mem_range.mp hi
  simp only [get_constraints]
  obtain ⟨gr, hgr, hgrmem⟩ :=
    grayAux_structure
      (yellowAux (List.range WORD_LENGTH)
        (greenAux (List.range WORD_LENGTH) answer guess).2.1
        (greenAux (List.range WORD_LENGTH) answer guess).2.2).2.2
      ((greenAux (List.range WORD_LENGTH) answer guess).1 ++
        (yellowAux (List.range WORD_LENGTH)
          (greenAux (List.range WORD_LENGTH) answer guess).2.1
          (greenAux (List.range WORD_LENGTH) answer guess).2.2).1)
  rw [hgr, List.append_assoc, greenAux_go]
  have hglen := greenAux_length (List.range WORD_LENGTH) answer guess
  have hP :=
    greenAux_mismatch (List.range WORD_LENGTH) answer guess (List.nodup_range _) hbound
  rw [yellowAux_go _ _ _ hP]
  apply passes_grays
  intro k hk
  obtain ⟨c, rfl, hcne, hcmem⟩ := hgrmem k hk
  refine ⟨c, rfl, ?_⟩
  obtain ⟨n, hn, hval⟩ := List.mem_iff_getElem.mp hcmem
  have hylen :=
    yellowAux_length (List.range WORD_LENGTH)
      (greenAux (List.range WORD_LENGTH) answer guess).2.1
      (greenAux (List.range WORD_LENGTH) answer guess).2.2
  have hget :
      (yellowAux (List.range WORD_LENGTH)
        (greenAux (List.range WORD_LENGTH) answer guess).2.1
        (greenAux (List.range WORD_LENGTH) answer guess).2.2).2.2.getD n '?' = c := by
    rw [List.getD_eq_getElem _ _ hn]
    exact hval
  have hn5 : n < WORD_LENGTH := by
    have := hn
    rw [hylen.2, hglen.2, hg] at this
    exact this
  have hres :=
    yellowAux_gray (List.range WORD_LENGTH)
      (greenAux (List.range WORD_LENGTH) answer guess).2.1
      (greenAux (List.range WORD_LENGTH) answer guess).2.2
      (List.nodup_range _)
      (fun j hj => by
        rw [hglen.2, hg]
        exact List.mem_range.mp hj)
      n (List.mem_range.mpr hn5) (hget ▸ hcne)
  rw [hget] at hres
  exact hres

/-- Witness for C1 at a concrete answer/guess pair of length 5. -/
theorem c1_derivation_soundness_witness :
    passes_constraints ['A', 'L', 'L', 'O', 'Y']
      (get_constraints ['A', 'L', 'L', 'O', 'Y'] ['L', 'O', 'L', 'L', 'Y']) = true :=
  c1_derivation_soundness ['A', 'L', 'L', 'O', 'Y'] ['L', 'O', 'L', 'L', 'Y']
    (by decide) (by decide)

lemma blankFirstOpt_of_mem {c : Char} {l : List Char} (h : c ∈ l) :
    blankFirstOpt c l = some (blankFirst c l) := by
  induction l with
  | nil => exact absurd h (List.not_mem_nil c)
  | cons d ds ih =>
    by_cases hd : d = c
    · simp [blankFirstOpt, blankFirst, hd]
    · rw [List.mem_cons] at h
      rcases h with rfl | h
      · exact absurd rfl hd
      · simp [blankFirstOpt, blankFirst, hd, ih h]

/-- Claim C9, totality of constraint checking: the checked variant (where the
Yellow-case `unwrap` can fail) never fails and agrees with `passes_constraints`,
because the blanking of a Yellow match is only reached after
`passes_constraint` has confirmed the working copy still contains the
character. -/
theorem c9_unwrap_totality (word : List Char) (constraints : List Constraint) :
    passesConstraintsChecked word constraints = some (passes_constraints word constraints) := by
  induction constraints generalizing word with
  | nil => rfl
  | cons c cs ih =>
    by_cases hp : passes_constraint word c = true
    · rw [passesConstraintsChecked, if_pos hp, passes_constraints, if_pos hp]
      cases c with
      | green d i => exact ih (word.set i '_')
      | yellow d i =>
        have hmem : d ∈ word := by
          have := hp
          simp only [passes_constraint, decide_eq_true_eq] at this
          exact this.1
        simp only [consumeChecked, consumeConstraint, blankFirstOpt_of_mem hmem]
        exact ih (blankFirst d word)
      | gray d => exact ih word
    · rw [passesConstraintsChecked, if_neg hp, passes_constraints, if_neg hp]

lemma passes_constraints_of_append {w : List Char} {a b : List Constraint}
    (h : passes_constraints w (a ++ b) = true) : passes_constraints w a = true := by
  induction a generalizing w with
  | nil => rfl
  | cons c a ih =>
    rw [List.cons_append, passes_constraints] at h
    by_cases hp : passes_constraint w c = true
    · rw [if_pos hp] at h
      rw [passes_constraints, if_pos hp]
      exact ih h
    · rw [if_neg hp] at h
      exact absurd h (by simp)

/-- Claim C3, filter monotonicity: filtering by an extended constraint sequence
(`c ++ t`, i.e. any sequence having `c` as a prefix) never yields more words
than filtering by `c` alone. -/
theorem c3_filter_monotonicity (words : List (List Char)) (c t : List Constraint) :
    (filter_word_list words (c ++ t)).length ≤ (filter_word_list words c).length := by
  induction words with
  | nil => exact Nat.le_refl 0
  | cons w ws ih =>
    simp only [filter_word_list, List.filter_cons] at ih ⊢
    by_cases h : passes_constraints w (c ++ t) = true
    · rw [if_pos h, if_pos (passes_constraints_of_append h)]
      exact Nat.succ_le_succ ih
    · rw [if_neg h]
      by_cases h2 : passes_constraints w c = true
      · rw [if_pos h2]
        exact Nat.le_succ_of_le ih
      · rw [if_neg h2]
        exact ih

/-- Claim C4, duplicate-letter scenario: answer ALLOY against guess LOLLY
derives exactly Green(L,2), Green(Y,4), Yellow(L,0), Yellow(O,1), Gray(L), in
that order, with a single Gray for the doubly-unmatched L. -/
theorem c4_duplicate_letter_scenario :
    get_constraints ['A', 'L', 'L', 'O', 'Y'] ['L', 'O', 'L', 'L', 'Y'] =
      [Constraint.green 'L' 2, Constraint.green 'Y' 4, Constraint.yellow 'L' 0,
        Constraint.yellow 'O' 1, Constraint.gray 'L'] := by
  decide

lemma foldl_congr_mem {α β : Type} (l : List α) (f g : β → α → β) (init : β)
    (h : ∀ a ∈ l, ∀ acc, f acc a = g acc a) : l.foldl f init = l.foldl g init := by
  induction l generalizing init with
  | nil => rfl
  | cons a l ih =>
    rw [List.foldl_cons, List.foldl_cons, h a (List.mem_cons_self a l)]
    exact ih _ (fun b hb acc => h b (List.mem_cons_of_mem a hb) acc)

/-- Any two sufficient fuel values (at least the remaining guess budget) give
`get_score_aux` the same value: the exhausted-slice arm is dead code. -/
lemma get_score_aux_fuel_irrel (answer : List Char) :
    ∀ (fuel fuel' : Nat) (guess : List Char) (words : List (List Char)) (sg : Nat),
      GUESS_LIMIT ≤ sg + fuel → GUESS_LIMIT ≤ sg + fuel' →
      get_score_aux answer fuel guess words sg = get_score_aux answer fuel' guess words sg := by
  intro fuel
  induction fuel with
  | zero =>
    intro fuel' guess words sg h _
    have hsg : GUESS_LIMIT ≤ sg := by simpa using h
    cases fuel' with
    | zero => rfl
    | succ f' =>
      by_cases heq : answer = guess
      · simp only [get_score_aux, if_pos heq]
      · simp only [get_score_aux, if_neg heq, if_pos hsg]
  | succ f ih =>
    intro fuel' guess words sg h h'
    by_cases heq : answer = guess
    · cases fuel' with
      | zero => simp only [get_score_aux, if_pos heq]
      | succ f' => simp only [get_score_aux, if_pos heq]
    · by_cases hsg : GUESS_LIMIT ≤ sg
      · cases fuel' with
        | zero => simp only [get_score_aux, if_neg heq, if_pos hsg]
        | succ f' => simp only [get_score_aux, if_neg heq, if_pos hsg]
      · cases fuel' with
        | zero => exact absurd (by simpa using h') hsg
        | succ f' =>
          simp only [get_score_aux, if_neg heq, if_neg hsg]
          have hfold :
              (filter_word_list words (get_constraints answer guess)).foldl
                  (fun acc w =>
                    (acc.1 +
                        (get_score_aux answer f w
                            (filter_word_list words (get_constraints answer guess)) (sg + 1)).1 *
                          (get_score_aux answer f w
                            (filter_word_list words (get_constraints answer guess)) (sg + 1)).2,
                      acc.2 +
                        (get_score_aux answer f w
                            (filter_word_list words (get_constraints answer guess)) (sg + 1)).2))
                  ((0 : ℚ), (0 : ℚ)) =
                (filter_word_list words (get_constraints answer guess)).foldl
                  (fun acc w =>
                    (acc.1 +
                        (get_score_aux answer f' w
                            (filter_word_list words (get_constraints answer guess)) (sg + 1)).1 *
                          (get_score_aux answer f' w
                            (filter_word_list words (get_constraints answer guess)) (sg + 1)).2,
                      acc.2 +
                        (get_score_aux answer f' w
                            (filter_word_list words (get_constraints answer guess)) (sg + 1)).2))
                  ((0 : ℚ), (0 : ℚ)) := by
            apply foldl_congr_mem
            intro w _ acc
            rw [ih f' w (filter_word_list words (get_constraints answer guess)) (sg + 1)
              (by omega) (by omega)]
          rw [hfold]

/-- The source-shaped unfolding of `get_score`: equality base case, budget base
case, then derive-filter-recurse with the accumulating fold. -/
lemma get_score_unfold (answer guess : List Char) (words : List (List Char)) (sg : Nat) :
    get_score answer guess words sg =
      if answer = guess then ((sg : ℚ), 1)
      else if GUESS_LIMIT ≤ sg then (0, 0)
      else
        let next := filter_word_list words (get_constraints answer guess)
        let s :=
          next.foldl
            (fun acc w =>
              let r := get_score answer w next (sg + 1)
              (acc.1 + r.1 * r.2, acc.2 + r.2))
            (0, 0)
        if 0 < s.2 then (s.1 / s.2, s.2 / (next.length : ℚ)) else (0, 0) := by
  have h1 : get_score answer guess words sg = get_score_aux answer (Nat.succ 5) guess words sg :=
    rfl
  rw [h1, get_score_aux.eq_2]
  by_cases heq : answer = guess
  · simp only [if_pos heq]
  · by_cases hsg : GUESS_LIMIT ≤ sg
    · simp only [if_neg heq, if_pos hsg]
    · simp only [if_neg heq, if_neg hsg]
      have hfold :
          (filter_word_list words (get_constraints answer guess)).foldl
              (fun acc w =>
                (acc.1 +
                    (get_score_aux answer 5 w
                        (filter_word_list words (get_constraints answer guess)) (sg + 1)).1 *
                      (get_score_aux answer 5 w
                        (filter_word_list words (get_constraints answer guess)) (sg + 1)).2,
                  acc.2 +
                    (get_score_aux answer 5 w
                        (filter_word_list words (get_constraints answer guess)) (sg + 1)).2))
              ((0 : ℚ), (0 : ℚ)) =
            (filter_word_list words (get_constraints answer guess)).foldl
              (fun acc w =>
                (acc.1 +
                    (get_score answer w
                        (filter_word_list words (get_constraints answer guess)) (sg + 1)).1 *
                      (get_score answer w
                        (filter_word_list words (get_constraints answer guess)) (sg + 1)).2,
                  acc.2 +
                    (get_score answer w
                        (filter_word_list words (get_constraints answer guess)) (sg + 1)).2))
              ((0 : ℚ), (0 : ℚ)) := by
        apply foldl_congr_mem
        intro w _ acc
        have h2 :
            get_score answer w (filter_word_list words (get_constraints answer guess)) (sg + 1) =
              get_score_aux answer 5 w (filter_word_list words (get_constraints answer guess))
                (sg + 1) := by
          show get_score_aux answer GUESS_LIMIT w
              (filter_word_list words (get_constraints answer guess)) (sg + 1) = _
          exact get_score_aux_fuel_irrel answer GUESS_LIMIT 5 w
            (filter_word_list words (get_constraints answer guess)) (sg + 1)
            (by simp only [GUESS_LIMIT]; omega) (by simp only [GUESS_LIMIT]; omega)
        rw [h2]
      rw [hfold]

lemma score_fold_sum (answer : List Char) (pool : List (List Char)) (sg : Nat) :
    ∀ (items : List (List Char)) (g0 s0 : ℚ),
      items.foldl
          (fun acc w =>
            (acc.1 + (get_score answer w pool sg).1 * (get_score answer w pool sg).2,
              acc.2 + (get_score answer w pool sg).2))
          (g0, s0) =
        (g0 +
            (items.map
              (fun w => (get_score answer w pool sg).1 * (get_score answer w pool sg).2)).sum,
          s0 + (items.map (fun w => (get_score answer w pool sg).2)).sum) := by
  intro items
  induction items with
  | nil => intro g0 s0; simp
  | cons w ws ih =>
    intro g0 s0
    rw [List.foldl_cons, ih]
    simp only [List.map_cons, List.sum_cons]
    rw [Prod.mk.injEq]
    constructor <;> ring

/-- Claim C10, equality precedes the budget check: a correct guess scores
`(n, 1)` for any pool (containing the word or not) and any attempt number,
including `n ≥ 6`, because the `guess == answer` base case is tested before
the guess-limit base case. -/
theorem c10_equality_precedes_budget (W : List Char) (pool : List (List Char)) (n : Nat) :
    get_score W W pool n = ((n : ℚ), 1) := by
  rw [get_score_unfold, if_pos rfl]

/-- Claim C8, immediate solve: guessing the answer itself at any valid attempt
number returns `(n, 1.0)`. -/
theorem c8_immediate_solve (W : List Char) (pool : List (List Char)) (n : Nat)
    (hmem : W ∈ pool) (h1 : 1 ≤ n) (h6 : n ≤ GUESS_LIMIT) :
    get_score W W pool n = ((n : ℚ), 1) := by
  rw [get_score_unfold, if_pos rfl]

/-- Witness for C8 at a concrete word, pool and attempt number. -/
theorem c8_immediate_solve_witness :
    get_score ['c', 'r', 'a', 'n', 'e'] ['c', 'r', 'a', 'n', 'e']
      [['c', 'r', 'a', 'n', 'e'], ['c', 'r', 'a', 't', 'e']] 3 = ((3 : ℚ), 1) :=
  c8_immediate_solve ['c', 'r', 'a', 'n', 'e']
    [['c', 'r', 'a', 'n', 'e'], ['c', 'r', 'a', 't', 'e']] 3
    (by decide) (by decide) (by decide)

/-- Claim C2, recursive-case scoring formula: for a wrong guess below the
budget, the score is formed from the constraint-filtered pool by the
success-weighted average of recursive guess counts and the pool-size-normalized
success sum, with the `(0, 0)` sentinel when the success sum is zero. -/
theorem c2_recursive_scoring (answer guess : List Char) (pool : List (List Char)) (n : Nat)
    (hne : guess ≠ answer) (hn : n < GUESS_LIMIT) :
    get_score answer guess pool n =
      (let next := filter_word_list pool (get_constraints answer guess)
       let gsum :=
         (next.map
           (fun w => (get_score answer w next (n + 1)).1 * (get_score answer w next (n + 1)).2)).sum
       let ssum := (next.map (fun w => (get_score answer w next (n + 1)).2)).sum
       if 0 < ssum then (gsum / ssum, ssum / (next.length : ℚ)) else (0, 0)) := by
  rw [get_score_unfold, if_neg (fun h => hne h.symm), if_neg (Nat.not_le.mpr hn)]
  simp only []
  rw [score_fold_sum answer (filter_word_list pool (get_constraints answer guess)) (n + 1)
    (filter_word_list pool (get_constraints answer guess)) 0 0]
  simp only [zero_add]

/-- Witness for C2 at a concrete wrong guess below the budget. -/
theorem c2_recursive_scoring_witness :
    get_score ['a'] ['b'] [['a'], ['b']] 5 =
      (let next := filter_word_list [['a'], ['b']] (get_constraints ['a'] ['b'])
       let gsum :=
         (next.map
           (fun w => (get_score ['a'] w next (5 + 1)).1 * (get_score ['a'] w next (5 + 1)).2)).sum
       let ssum := (next.map (fun w => (get_score ['a'] w next (5 + 1)).2)).sum
       if 0 < ssum then (gsum / ssum, ssum / (next.length : ℚ)) else (0, 0)) :=
  c2_recursive_scoring ['a'] ['b'] [['a'], ['b']] 5 (by decide) (by decide)

lemma utf8Length_eq_length {s : List Char} (h : ∀ c ∈ s, Char.utf8Size c = 1) :
    utf8Length s = s.length := by
  induction s with
  | nil => rfl
  | cons c cs ih =>
    have hstep : utf8Length (c :: cs) = c.utf8Size + utf8Length cs := by
      simp [utf8Length]
    rw [hstep, h c (List.mem_cons_self c cs),
      ih (fun d hd => h d (List.mem_cons_of_mem c hd)), List.length_cons]
    omega

lemma fillWord_full : ∀ (s : List Char) (n : Nat), s.length = n →
    fillWord (List.replicate n '_') s = s := by
  intro s
  induction s with
  | nil =>
    intro n hn
    rw [← hn]
    rfl
  | cons c cs ih =>
    intro n hn
    cases n with
    | zero => exact absurd hn (by simp)
    | succ k =>
      rw [List.replicate_succ, fillWord, ih k (by simpa using hn)]

/-- On an input whose byte length is `WORD_LENGTH` and whose character count is
also `WORD_LENGTH` (i.e. all-single-byte input, such as ASCII), parsing
succeeds and copies the characters exactly. -/
lemma wordFromStr_exact {s : List Char} (hl : s.length = WORD_LENGTH)
    (hu : utf8Length s = WORD_LENGTH) : wordFromStr s = Except.ok s := by
  rw [wordFromStr, if_pos hu, fillWord_full s WORD_LENGTH hl]

/-- Claim C6 counterexample: an input of exactly 5 characters (one of them
two bytes long in UTF-8) is rejected with the length-mismatch error, refuting
"fails iff the input is not exactly K=5 characters". -/
theorem c6_parse_counterexample :
    (['a', 'b', 'c', 'd', 'é'] : List Char).length = WORD_LENGTH ∧
      wordFromStr ['a', 'b', 'c', 'd', 'é'] = Except.error "word has incorrect length" := by
  constructor
  · rfl
  · rfl

/-- Claim C6 as amended: parsing fails with the length-mismatch error iff the
input UTF-8 byte length (`value.len()`) is not exactly `WORD_LENGTH`; when
the input moreover has exactly `WORD_LENGTH` characters (e.g. ASCII), the
characters are copied positionally and exactly. -/
theorem c6_parse_failure_condition (s : List Char) :
    ((wordFromStr s).isOk = true ↔ utf8Length s = WORD_LENGTH) ∧
      (s.length = WORD_LENGTH → utf8Length s = WORD_LENGTH → wordFromStr s = Except.ok s) := by
  constructor
  · by_cases h : utf8Length s = WORD_LENGTH
    · simp [wordFromStr, h, Except.isOk, Except.toBool]
    · simp [wordFromStr, h, Except.isOk, Except.toBool]
  · intro hl hu
    exact wordFromStr_exact hl hu

/-- Witness for the amended C6 at a concrete 5-character ASCII input. -/
theorem c6_parse_failure_condition_witness :
    wordFromStr ['c', 'r', 'a', 'n', 'e'] = Except.ok ['c', 'r', 'a', 'n', 'e'] :=
  (c6_parse_failure_condition ['c', 'r', 'a', 'n', 'e']).2 (by decide) (by decide)

/-- Claim C7 counterexample: parsing does not case-normalize; the uppercase and
lowercase forms of the alphabetic string "crane" parse to different Words. -/
theorem c7_case_counterexample :
    ((['c', 'r', 'a', 'n', 'e'] : List Char).map Char.toUpper = ['C', 'R', 'A', 'N', 'E']) ∧
      wordFromStr ['C', 'R', 'A', 'N', 'E'] ≠ wordFromStr ['c', 'r', 'a', 'n', 'e'] := by
  constructor
  · rfl
  · intro h
    have e1 : wordFromStr ['C', 'R', 'A', 'N', 'E'] =
        Except.ok ['C', 'R', 'A', 'N', 'E'] := rfl
    have e2 : wordFromStr ['c', 'r', 'a', 'n', 'e'] =
        Except.ok ['c', 'r', 'a', 'n', 'e'] := rfl
    rw [e1, e2] at h
    exact absurd (Except.ok.inj h) (by decide)

/-- Claim C7 as amended: parsing preserves characters verbatim (no case
normalization), so for a 5-character string (single-byte characters, as are
all ASCII letters) the parses of its uppercase and lowercase forms are equal
exactly when those two forms are the same string. -/
theorem c7_no_case_normalization (s : List Char) (hl : s.length = WORD_LENGTH)
    (hsz : ∀ c ∈ s, Char.utf8Size c = 1 ∧ Char.utf8Size c.toUpper = 1 ∧
      Char.utf8Size c.toLower = 1) :
    (wordFromStr (s.map Char.toUpper) = wordFromStr (s.map Char.toLower) ↔
      s.map Char.toUpper = s.map Char.toLower) := by
  have hu : wordFromStr (s.map Char.toUpper) = Except.ok (s.map Char.toUpper) := by
    apply wordFromStr_exact
    · rw [List.length_map]
      exact hl
    · rw [utf8Length_eq_length, List.length_map]
      · exact hl
      · intro c hc
        obtain ⟨d, hd, rfl⟩ := List.mem_map.mp hc
        exact (hsz d hd).2.1
  have hlo : wordFromStr (s.map Char.toLower) = Except.ok (s.map Char.toLower) := by
    apply wordFromStr_exact
    · rw [List.length_map]
      exact hl
    · rw [utf8Length_eq_length, List.length_map]
      · exact hl
      · intro c hc
        obtain ⟨d, hd, rfl⟩ := List.mem_map.mp hc
        exact (hsz d hd).2.2
  rw [hu, hlo]
  constructor
  · intro h
    exact Except.ok.inj h
  · intro h
    rw [h]

/-- Witness for the amended C7 at the concrete alphabetic string "crane". -/
theorem c7_no_case_normalization_witness :
    (wordFromStr ((['c', 'r', 'a', 'n', 'e'] : List Char).map Char.toUpper) =
        wordFromStr ((['c', 'r', 'a', 'n', 'e'] : List Char).map Char.toLower) ↔
      (['c', 'r', 'a', 'n', 'e'] : List Char).map Char.toUpper =
        (['c', 'r', 'a', 'n', 'e'] : List Char).map Char.toLower) :=
  c7_no_case_normalization ['c', 'r', 'a', 'n', 'e'] (by decide) (by decide)

lemma reportLe_trans (a b c : Entry) (hab : reportLe a b = true) (hbc : reportLe b c = true) :
    reportLe a c = true := by
  simp only [reportLe, decide_eq_true_eq] at *
  exact le_trans hab hbc

lemma reportLe_total (a b : Entry) : (reportLe a b || reportLe b a) = true := by
  simp only [reportLe, Bool.or_eq_true, decide_eq_true_eq]
  exact le_total a.2.1 b.2.1

lemma collect_go (l : List Entry) :
    ∀ acc : List Entry, List.Pairwise (fun a b => reportLe a b = true) acc →
      List.Pairwise (fun a b => reportLe a b = true)
          (l.foldl (fun acc r => (acc ++ [r]).mergeSort reportLe) acc) ∧
        (l.foldl (fun acc r => (acc ++ [r]).mergeSort reportLe) acc).Perm (acc ++ l) := by
  induction l with
  | nil =>
    intro acc hacc
    exact ⟨hacc, by simp⟩
  | cons r l ih =>
    intro acc hacc
    rw [List.foldl_cons]
    have hstep : List.Pairwise (fun a b => reportLe a b = true)
        ((acc ++ [r]).mergeSort reportLe) :=
      List.sorted_mergeSort reportLe_trans reportLe_total (acc ++ [r])
    obtain ⟨hs, hp⟩ := ih ((acc ++ [r]).mergeSort reportLe) hstep
    refine ⟨hs, hp.trans ?_⟩
    have hperm : ((acc ++ [r]).mergeSort reportLe).Perm (acc ++ [r]) :=
      List.mergeSort_perm (acc ++ [r]) reportLe
    have happ := hperm.append_right l
    rw [List.append_assoc, List.singleton_append] at happ
    exact happ

lemma collect_sorted_perm (l : List Entry) :
    List.Pairwise (fun a b => reportLe a b = true) (collect l) ∧ (collect l).Perm l := by
  have := collect_go l [] (List.Pairwise.nil)
  simpa [collect] using this

/-- Two sorted lists that are permutations of each other and whose
expected-guess keys are pairwise distinct are equal. -/
lemma sorted_distinct_unique :
    ∀ (m1 m2 : List Entry), m1.Perm m2 →
      List.Pairwise (fun a b => reportLe a b = true) m1 →
      List.Pairwise (fun a b => reportLe a b = true) m2 →
      List.Pairwise (fun a b : Entry => a.2.1 ≠ b.2.1) m1 →
      m1 = m2 := by
  intro m1
  induction m1 with
  | nil =>
    intro m2 hperm _ _ _
    exact hperm.nil_eq
  | cons a t1 ih =>
    intro m2 hperm hs1 hs2 hd1
    cases m2 with
    | nil => exact absurd hperm.symm.nil_eq (by simp)
    | cons b t2 =>
      rw [List.pairwise_cons] at hs1 hs2 hd1
      have hab : a = b := by
        have hamem : a ∈ b :: t2 := hperm.mem_iff.mp (List.mem_cons_self a t1)
        rw [List.mem_cons] at hamem
        rcases hamem with h | hat2
        · exact h
        · have hbmem : b ∈ a :: t1 := hperm.symm.mem_iff.mp (List.mem_cons_self b t2)
          rw [List.mem_cons] at hbmem
          rcases hbmem with h | hbt1
          · exact h.symm
          · have h1 : a.2.1 ≤ b.2.1 := by
              have := hs1.1 b hbt1
              simpa [reportLe] using this
            have h2 : b.2.1 ≤ a.2.1 := by
              have := hs2.1 a hat2
              simpa [reportLe] using this
            exact absurd (le_antisymm h1 h2) (hd1.1 b hbt1)
      subst hab
      have htail : t1.Perm t2 := hperm.cons_inv
      rw [ih t2 htail hs1.2 hs2.2 hd1.2]

/-- Claim C5 counterexample: with answer pool and guess pool {aaaaa} and the
two search words bbbbb and ccccc (which receive identical scores and hence tie
on the sort key), the two arrival orders are permutations of the same per-word
results yet produce different fully drained reports: the claim as stated
(identical report for every permutation of result arrivals) is false. -/
theorem c5_report_counterexample :
    ([(['b', 'b', 'b', 'b', 'b'],
          score_word [['a', 'a', 'a', 'a', 'a']] [['a', 'a', 'a', 'a', 'a']]
            ['b', 'b', 'b', 'b', 'b']),
        (['c', 'c', 'c', 'c', 'c'],
          score_word [['a', 'a', 'a', 'a', 'a']] [['a', 'a', 'a', 'a', 'a']]
            ['c', 'c', 'c', 'c', 'c'])] : List Entry).Perm
      [(['c', 'c', 'c', 'c', 'c'],
          score_word [['a', 'a', 'a', 'a', 'a']] [['a', 'a', 'a', 'a', 'a']]
            ['c', 'c', 'c', 'c', 'c']),
        (['b', 'b', 'b', 'b', 'b'],
          score_word [['a', 'a', 'a', 'a', 'a']] [['a', 'a', 'a', 'a', 'a']]
            ['b', 'b', 'b', 'b', 'b'])] ∧
    collect
        [(['b', 'b', 'b', 'b', 'b'],
            score_word [['a', 'a', 'a', 'a', 'a']] [['a', 'a', 'a', 'a', 'a']]
              ['b', 'b', 'b', 'b', 'b']),
          (['c', 'c', 'c', 'c', 'c'],
            score_word [['a', 'a', 'a', 'a', 'a']] [['a', 'a', 'a', 'a', 'a']]
              ['c', 'c', 'c', 'c', 'c'])] ≠
      collect
        [(['c', 'c', 'c', 'c', 'c'],
            score_word [['a', 'a', 'a', 'a', 'a']] [['a', 'a', 'a', 'a', 'a']]
              ['c', 'c', 'c', 'c', 'c']),
          (['b', 'b', 'b', 'b', 'b'],
            score_word [['a', 'a', 'a', 'a', 'a']] [['a', 'a', 'a', 'a', 'a']]
              ['b', 'b', 'b', 'b', 'b'])] := by
  constructor
  · exact List.Perm.swap _ _ _
  · have hsingle : ∀ e : Entry, (([] : List Entry) ++ [e]).mergeSort reportLe = [e] := by
      intro e
      apply List.mergeSort_of_sorted
      simp
    have hpair : ∀ e1 e2 : Entry, reportLe e1 e2 = true →
        (([e1] ++ [e2]).mergeSort reportLe) = [e1, e2] := by
      intro e1 e2 h
      apply List.mergeSort_of_sorted
      simp [h]
    have htie1 : reportLe
        (['b', 'b', 'b', 'b', 'b'],
          score_word [['a', 'a', 'a', 'a', 'a']] [['a', 'a', 'a', 'a', 'a']]
            ['b', 'b', 'b', 'b', 'b'])
        (['c', 'c', 'c', 'c', 'c'],
          score_word [['a', 'a', 'a', 'a', 'a']] [['a', 'a', 'a', 'a', 'a']]
            ['c', 'c', 'c', 'c', 'c']) = true := by
      with_unfolding_all decide
    have htie2 : reportLe
        (['c', 'c', 'c', 'c', 'c'],
          score_word [['a', 'a', 'a', 'a', 'a']] [['a', 'a', 'a', 'a', 'a']]
            ['c', 'c', 'c', 'c', 'c'])
        (['b', 'b', 'b', 'b', 'b'],
          score_word [['a', 'a', 'a', 'a', 'a']] [['a', 'a', 'a', 'a', 'a']]
            ['b', 'b', 'b', 'b', 'b']) = true := by
      with_unfolding_all decide
    have hc1 : collect
        [(['b', 'b', 'b', 'b', 'b'],
            score_word [['a', 'a', 'a', 'a', 'a']] [['a', 'a', 'a', 'a', 'a']]
              ['b', 'b', 'b', 'b', 'b']),
          (['c', 'c', 'c', 'c', 'c'],
            score_word [['a', 'a', 'a', 'a', 'a']] [['a', 'a', 'a', 'a', 'a']]
              ['c', 'c', 'c', 'c', 'c'])] =
        [(['b', 'b', 'b', 'b', 'b'],
            score_word [['a', 'a', 'a', 'a', 'a']] [['a', 'a', 'a', 'a', 'a']]
              ['b', 'b', 'b', 'b', 'b']),
          (['c', 'c', 'c', 'c', 'c'],
            score_word [['a', 'a', 'a', 'a', 'a']] [['a', 'a', 'a', 'a', 'a']]
              ['c', 'c', 'c', 'c', 'c'])] := by
      simp only [collect, List.foldl_cons, List.foldl_nil, hsingle]
      exact hpair _ _ htie1
    have hc2 : collect
        [(['c', 'c', 'c', 'c', 'c'],
            score_word [['a', 'a', 'a', 'a', 'a']] [['a', 'a', 'a', 'a', 'a']]
              ['c', 'c', 'c', 'c', 'c']),
          (['b', 'b', 'b', 'b', 'b'],
            score_word [['a', 'a', 'a', 'a', 'a']] [['a', 'a', 'a', 'a', 'a']]
              ['b', 'b', 'b', 'b', 'b'])] =
        [(['c', 'c', 'c', 'c', 'c'],
            score_word [['a', 'a', 'a', 'a', 'a']] [['a', 'a', 'a', 'a', 'a']]
              ['c', 'c', 'c', 'c', 'c']),
          (['b', 'b', 'b', 'b', 'b'],
            score_word [['a', 'a', 'a', 'a', 'a']] [['a', 'a', 'a', 'a', 'a']]
              ['b', 'b', 'b', 'b', 'b'])] := by
      simp only [collect, List.foldl_cons, List.foldl_nil, hsingle]
      exact hpair _ _ htie2
    rw [hc1, hc2]
    intro h
    have hhead := List.head_eq_of_cons_eq h
    have : (['b', 'b', 'b', 'b', 'b'] : List Char) = ['c', 'c', 'c', 'c', 'c'] :=
      congrArg Prod.fst hhead
    exact absurd this (by decide)

/-- Claim C5 as amended: the per-word scores are a pure function of the pools,
and the fully drained, sorted report is identical for every permutation of
result arrivals (hence for every worker-thread count) provided no two per-word
results share the same expected-guess-count sort key; with tied keys only the
relative order of the tied rows can differ. -/
theorem c5_report_order_invariance (answer_words guess_words search_words : List (List Char))
    (l1 l2 : List Entry)
    (h1 : l1.Perm (search_words.map (fun w => (w, score_word answer_words guess_words w))))
    (h2 : l2.Perm (search_words.map (fun w => (w, score_word answer_words guess_words w))))
    (hkeys : List.Pairwise (fun a b : Entry => a.2.1 ≠ b.2.1)
      (search_words.map (fun w => (w, score_word answer_words guess_words w)))) :
    collect l1 = collect l2 := by
  obtain ⟨hs1, hp1⟩ := collect_sorted_perm l1
  obtain ⟨hs2, hp2⟩ := collect_sorted_perm l2
  have hperm : (collect l1).Perm (collect l2) :=
    (hp1.trans h1).trans ((hp2.trans h2).symm)
  have hsymm : ∀ {x y : Entry}, x.2.1 ≠ y.2.1 → y.2.1 ≠ x.2.1 := fun h he => h he.symm
  have hd1 : List.Pairwise (fun a b : Entry => a.2.1 ≠ b.2.1) (collect l1) :=
    (List.Perm.pairwise_iff hsymm (hp1.trans h1)).mpr hkeys
  exact sorted_distinct_unique (collect l1) (collect l2) hperm hs1 hs2 hd1

/-- Witness for the amended C5: two distinct-keyed search words, two arrival
orders, identical drained reports. -/
theorem c5_report_order_invariance_witness :
    collect
        [(['a', 'a', 'a', 'a', 'a'],
            score_word [['a', 'a', 'a', 'a', 'a']] [['a', 'a', 'a', 'a', 'a']]
              ['a', 'a', 'a', 'a', 'a']),
          (['b', 'b', 'b', 'b', 'b'],
            score_word [['a', 'a', 'a', 'a', 'a']] [['a', 'a', 'a', 'a', 'a']]
              ['b', 'b', 'b', 'b', 'b'])] =
      collect
        [(['b', 'b', 'b', 'b', 'b'],
            score_word [['a', 'a', 'a', 'a', 'a']] [['a', 'a', 'a', 'a', 'a']]
              ['b', 'b', 'b', 'b', 'b']),
          (['a', 'a', 'a', 'a', 'a'],
            score_word [['a', 'a', 'a', 'a', 'a']] [['a', 'a', 'a', 'a', 'a']]
              ['a', 'a', 'a', 'a', 'a'])] :=
  c5_report_order_invariance [['a', 'a', 'a', 'a', 'a']] [['a', 'a', 'a', 'a', 'a']]
    [['a', 'a', 'a', 'a', 'a'], ['b', 'b', 'b', 'b', 'b']] _ _
    (List.Perm.refl _) (List.Perm.swap _ _ _)
    (by
      rw [List.map_cons, List.map_cons, List.map_nil]
      refine List.Pairwise.cons ?_ (List.Pairwise.cons ?_ List.Pairwise.nil)
      · intro b hb
        rw [List.mem_singleton] at hb
        subst hb
        with_unfolding_all decide
      · intro b hb
        exact absurd hb (List.not_mem_nil b))

example : get_score ['a'] ['a'] [] 9 = ((9 : ℚ), 1) := rfl

example :
    get_score ['c', 'r', 'a', 't', 'e'] ['c', 'r', 'a', 't', 'e']
      [['c', 'r', 'a', 't', 'e'], ['c', 'r', 'a', 'n', 'e']] 1 = ((1 : ℚ), 1) := rfl

example :
    score_word [['a', 'a', 'a', 'a', 'a']] [['a', 'a', 'a', 'a', 'a']]
      ['b', 'b', 'b', 'b', 'b'] = ((2 : ℚ), 1) := by
  with_unfolding_all rfl
